import Mathlib

set_option autoImplicit false
set_option maxRecDepth 40000

/-!
Verification of `export_meta_data_json.py` (comfyui_export_metadata).

The Python source is shallowly embedded below.  JSON values become the
inductive `JsonValue`; Python (ordered) dicts become association lists
`List (String × JsonValue)` with the `od*` operations mirroring
`OrderedDict` semantics; `json.loads` is an external collaborator and is
passed in as a `parse : String → Option JsonValue` oracle (`none` models a
decode failure).  Filesystem effects performed by the script are recorded
in a `WmResult` trace: `ops` are the mutations actually performed,
`planned` are the mutations a dry run announces, `logs` are the printed
messages, and `err` is an exception escaping the modelled function
(the source only catches specific exception classes).
-/

/-- JSON values as decoded by `json.loads` with `object_pairs_hook=OrderedDict`:
objects keep their key order, so they are association lists. -/
inductive JsonValue where
  | jStr (s : String)
  | jNum (n : Int)
  | jBool (b : Bool)
  | jNull
  | jArr (elems : List JsonValue)
  | jObj (fields : List (String × JsonValue))

/-- A value of the metadata mapping returned by `extract_image_metadata`:
either a Python `str` (the only kind `is_json` is ever applied to, because of
the `isinstance(value, str)` guard) or some non-string value, carried by its
`str()` rendering, which is all the `.txt` serialisation needs. -/
inductive MetaValue where
  | mStr (s : String)
  | mOther (rendering : String)

/-- The reserved provenance key. -/
def ptpKey : String := "post_training_processing"

/-- `k in d` on an ordered mapping (membership among the keys). -/
def odMember : List (String × JsonValue) → String → Bool
  | [], _ => false
  | kv :: rest, k => kv.1 == k || odMember rest k

/-- `d[k]` lookup on an ordered mapping. -/
def odLookup : List (String × JsonValue) → String → Option JsonValue
  | [], _ => none
  | kv :: rest, k => if kv.1 == k then some kv.2 else odLookup rest k

/-- `d[k] = v` on an `OrderedDict`: updates in place if the key exists
(keeping its position), otherwise appends the key at the end. -/
def odInsert (m : List (String × JsonValue)) (k : String) (v : JsonValue) :
    List (String × JsonValue) :=
  if odMember m k then
    m.map (fun kv => if kv.1 == k then (kv.1, v) else kv)
  else m ++ [(k, v)]

/-- `merge_json_data` (source lines 49-69): the `post_training_processing`
entry is placed first (from `existing_json` if present, else from
`new_json`), then all other `existing_json` entries are copied in order,
then each `new_json` entry whose key is neither the provenance key nor
already present is appended. -/
def merge_json_data (existing_json new_json : List (String × JsonValue)) :
    List (String × JsonValue) :=
  let merged0 : List (String × JsonValue) :=
    match odLookup existing_json ptpKey with
    | some v => [(ptpKey, v)]
    | none =>
      match odLookup new_json ptpKey with
      | some v => [(ptpKey, v)]
      | none => []
  let merged1 := existing_json.foldl
    (fun acc kv => if kv.1 == ptpKey then acc else odInsert acc kv.1 kv.2) merged0
  new_json.foldl
    (fun acc kv =>
      if kv.1 == ptpKey || odMember acc kv.1 then acc else odInsert acc kv.1 kv.2)
    merged1

/-- Restatement of the spec's description of the merge, used to compare
`merge_json_data` against the claimed ordering: the provenance head, then
the remaining `existing` entries in their original order with their
original values, then the `incoming` entries whose key is new, in
`incoming`'s order. -/
def merge_spec_description (existing_json new_json : List (String × JsonValue)) :
    List (String × JsonValue) :=
  (match odLookup existing_json ptpKey with
   | some v => [(ptpKey, v)]
   | none =>
     match odLookup new_json ptpKey with
     | some v => [(ptpKey, v)]
     | none => []) ++
  existing_json.filter (fun kv => kv.1 != ptpKey) ++
  new_json.filter (fun kv => kv.1 != ptpKey && !(odMember existing_json kv.1))

/-- A piece of `re.split(r'(\d+\.\d+)', filename)`: either text that the
pattern did not match, or a matched decimal token with its integer digits
`d1` and fractional digits `d2`. -/
inductive SplitPart where
  | text (chars : List Char)
  | tok (d1 d2 : List Char)

/-- Start code points of the Unicode 15.0 decimal-digit (Nd) ranges; every
Nd range is ten consecutive code points carrying the digit values 0-9.
Python's regex `\d` matches exactly the Nd characters on `str` input, and
`float()` converts them by their decimal value, so the scanner and the
numeric conversion below both use this table rather than ASCII `0`-`9`
alone. -/
def ndRangeStarts : List Nat :=
  [48, 0x660, 0x6F0, 0x7C0, 0x966, 0x9E6, 0xA66, 0xAE6, 0xB66, 0xBE6,
   0xC66, 0xCE6, 0xD66, 0xDE6, 0xE50, 0xED0, 0xF20, 0x1040, 0x1090, 0x17E0,
   0x1810, 0x1946, 0x19D0, 0x1A80, 0x1A90, 0x1B50, 0x1BB0, 0x1C40, 0x1C50,
   0xA620, 0xA8D0, 0xA900, 0xA9D0, 0xA9F0, 0xAA50, 0xABF0, 0xFF10,
   0x104A0, 0x10D30, 0x11066, 0x110F0, 0x11136, 0x111D0, 0x112F0, 0x11450,
   0x114D0, 0x11650, 0x116C0, 0x11730, 0x118E0, 0x11950, 0x11C50, 0x11D50,
   0x11DA0, 0x11F50, 0x16A60, 0x16AC0, 0x16B50,
   0x1D7CE, 0x1D7D8, 0x1D7E2, 0x1D7EC, 0x1D7F6,
   0x1E140, 0x1E2F0, 0x1E4F0, 0x1E950, 0x1FBF0]

/-- The character class Python's `\d` matches on `str`: a Unicode decimal
digit (category Nd). -/
def isPyDigit (c : Char) : Bool :=
  ndRangeStarts.any (fun s => s ≤ c.toNat && c.toNat ≤ s + 9)

/-- The decimal value of an Nd digit (its offset in its range), as used by
`float()` when converting non-ASCII digits. -/
def pyDigitVal (c : Char) : Nat :=
  match ndRangeStarts.find? (fun s => s ≤ c.toNat && c.toNat ≤ s + 9) with
  | some s => c.toNat - s
  | none => 0

/-- Scanner equivalent to `re.split(r'(\d+\.\d+)', filename)`: a match is a
maximal digit run, a literal dot, and a following maximal digit run (the
regex is greedy and a match always absorbs the whole digit run on each
side, so scanning maximal runs is leftmost-longest faithful).  Fueled by
the input length; each step consumes at least one character. -/
def tokenizeAux : Nat → List Char → List SplitPart
  | _, [] => []
  | 0, l => [SplitPart.text l]
  | fuel + 1, c :: rest =>
    if isPyDigit c then
      let d1 := (c :: rest).takeWhile isPyDigit
      let r1 := (c :: rest).dropWhile isPyDigit
      match r1 with
      | '.' :: r2 =>
        let d2 := r2.takeWhile isPyDigit
        if d2.isEmpty then SplitPart.text d1 :: tokenizeAux fuel r1
        else SplitPart.tok d1 d2 :: tokenizeAux fuel (r2.dropWhile isPyDigit)
      | _ => SplitPart.text d1 :: tokenizeAux fuel r1
    else SplitPart.text [c] :: tokenizeAux fuel rest

def tokenize (l : List Char) : List SplitPart := tokenizeAux l.length l

/-- Digit characters to the natural number they denote, using the Unicode
decimal value of each digit as `float()` does. -/
def digitsToNat (l : List Char) : Nat :=
  l.foldl (fun n c => 10 * n + pyDigitVal c) 0

/-- Round `a / b` to the nearest integer, ties to even (the rounding used
both by binary64 conversion and by CPython's fixed-point formatting). -/
def rheDiv (a b : Nat) : Nat :=
  let q := a / b
  let r := a % b
  if 2 * r < b then q
  else if b < 2 * r then q + 1
  else if q % 2 = 0 then q else q + 1

/-- Fueled binary logarithm (floor of log2; 0 on inputs below 2), written
with structural recursion so that it reduces inside the kernel.  The fuel
bounds the number of halvings, so passing the argument itself as fuel is
always sufficient (`n < 2 ^ n`). -/
def log2F : Nat → Nat → Nat
  | 0, _ => 0
  | fuel + 1, n => if n ≤ 1 then 0 else 1 + log2F fuel (n / 2)

/-- Round the positive rational `a / b` to IEEE-754 binary64 (normal
range), returning the significand `m` with `2 ^ 52 ≤ m < 2 ^ 53` and the
exponent `e` of the value `m * 2 ^ e`.  This is what CPython's `float(s)`
computes (correctly rounded, ties to even). -/
def rnd64 (a b : Nat) : Nat × Int :=
  let t : Int := 52 - (Int.ofNat (log2F a a) - Int.ofNat (log2F b b))
  let a1 := if 0 ≤ t then a * 2 ^ t.toNat else a
  let b1 := if 0 ≤ t then b else b * 2 ^ (-t).toNat
  let s :=
    if b1 * 2 ^ 53 ≤ a1 then (a1, 2 * b1, -t + 1)
    else if a1 < b1 * 2 ^ 52 then (2 * a1, b1, -t - 1)
    else (a1, b1, -t)
  let m0 := rheDiv s.1 s.2.1
  if m0 = 2 ^ 53 then (2 ^ 52, s.2.2 + 1) else (m0, s.2.2)

/-- Two-digit zero-padded decimal rendering of `n < 100`. -/
def pad2 (n : Nat) : List Char :=
  if n < 10 then '0' :: (Nat.repr n).toList else (Nat.repr n).toList

/-- The number of hundredths in the binary64 value `m * 2 ^ e`, rounded to
the nearest integer with ties to even: the integer CPython's fixed-point
formatting of that value with two fractional digits prints. -/
def hundredths (m : Nat) (e : Int) : Nat :=
  if 0 ≤ e then 100 * m * 2 ^ e.toNat else rheDiv (100 * m) (2 ^ (-e).toNat)

/-- `f"{d:.2f}"` for the binary64 value `m * 2 ^ e`: the exact value is
rounded to the nearest hundredth (ties to even) and printed with exactly
two fractional digits. -/
def format2 (m : Nat) (e : Int) : List Char :=
  let k := hundredths m e
  (Nat.repr (k / 100)).toList ++ '.' :: pad2 (k % 100)

/-- `f"{float(part):.2f}"` for a matched token with integer digits `d1` and
fractional digits `d2`: convert the decimal to binary64, then format with
two fractional digits.  Values rounding to `2 ^ 1024` or above become
`inf` (so the formatted text is `"inf"`); the subnormal range (below
`2 ^ -1022`, unreachable for realistic filename tokens) is not modelled. -/
def fixToken (d1 d2 : List Char) : List Char :=
  let a := digitsToNat (d1 ++ d2)
  let b := 10 ^ d2.length
  if a = 0 then '0' :: '.' :: '0' :: '0' :: []
  else
    let me := rnd64 a b
    if 972 ≤ me.2 then 'i' :: 'n' :: 'f' :: []
    else format2 me.1 me.2

def renderPart : SplitPart → List Char
  | .text chars => chars
  | .tok d1 d2 => fixToken d1 d2

/-- The characters a split part stands for in the input string (a token
`(d1, d2)` came from `d1 ++ "." ++ d2`); used to state that the scanner is
an exact decomposition of its input. -/
def partChars : SplitPart → List Char
  | .text chars => chars
  | .tok d1 d2 => d1 ++ '.' :: d2

/-- `fix_floating_point_filenames` (source lines 71-82) on a character
list: split on the decimal pattern, reformat each matched token through
`float(...)` and `:.2f`, and rejoin. -/
def fixL (l : List Char) : List Char := ((tokenize l).map renderPart).flatten

/-- `fix_floating_point_filenames` (source lines 71-82). -/
def fix_floating_point_filenames (s : String) : String := String.mk (fixL s.toList)

/-- A `pathlib.Path` as used by the script: every path it manipulates is a
stem plus a suffix (the image paths end in `.png`/`.jpg`/`.jpeg`, the
sidecars in `.json`/`.txt`), and `with_suffix`/`with_name` only ever swap
the suffix or the whole name. -/
structure FPath where
  stem : String
  ext : String

def FPath.name (p : FPath) : String := p.stem ++ p.ext

/-- Contents written to a sidecar: a JSON document (serialised with
`json.dumps(..., indent=4)`, which is injective and deterministic on
ordered documents, so the document itself stands for the bytes) or the
`key: value` lines of a `.txt` sidecar. -/
inductive FileContent where
  | jsonDoc (doc : List (String × JsonValue))
  | txtLines (entries : List (String × String))

/-- A filesystem mutation performed (or announced) by the script. -/
inductive FsOp where
  | rename (oldName newName : String)
  | writeFile (path : String) (content : FileContent)
  | deleteFile (path : String)

/-- The console messages the script prints, one constructor per
`print` site. -/
inductive LogMsg where
  | dryRename (oldName newName : String)
  | renamed (oldName newName : String)
  | foundExisting (path : String)
  | alreadyProcessed (path : String)
  | dryOverwrite (path : String)
  | overwrote (path : String)
  | invalidJsonWarning (path : String)
  | drySaveTxt (path : String)
  | savedTxt (path : String)
  | dryDeleteOrphan (path : String)
  | deletedOrphan (path : String)
  | noMetadataWarning (path : String)
  | extracting (path : String)

/-- An exception escaping a modelled function (nothing in the source
catches these): `typeError` is the `TypeError` raised by the
`post_training_processing` membership test / item assignment on a
non-object payload, `jsonDecodeEscape` the `json.JSONDecodeError` raised
by `json.load` on a malformed pre-existing sidecar (the `except` clause at
line 169 only covers the later `try` block). -/
inductive PyErr where
  | typeError
  | jsonDecodeEscape
deriving DecidableEq

/-- The observable outcome of a modelled operation: mutations performed
(`ops`), mutations a dry run announces (`planned`), printed messages, and
an escaped exception if any. -/
structure WmResult where
  ops : List FsOp
  planned : List FsOp
  logs : List LogMsg
  err : Option PyErr

def WmResult.empty : WmResult := ⟨[], [], [], none⟩

/-- Sequencing of effects: once an exception has escaped (`err` set),
nothing further executes. -/
def WmResult.seq (a b : WmResult) : WmResult :=
  match a.err with
  | some _ => a
  | none => ⟨a.ops ++ b.ops, a.planned ++ b.planned, a.logs ++ b.logs, b.err⟩

/-- `rename_file` (source lines 84-103): no-op when the name is unchanged,
an announcement under dry run, otherwise the rename.  (An `os.rename`
failure is caught and logged by the source and is outside this model.) -/
def rename_file (oldName newName : String) (dry_run : Bool) : WmResult :=
  if oldName = newName then WmResult.empty
  else if dry_run then ⟨[], [.rename oldName newName], [.dryRename oldName newName], none⟩
  else ⟨[.rename oldName newName], [], [.renamed oldName newName], none⟩

/-- Result of `json.load` on a pre-existing sidecar: a well-formed
top-level object, or a decode failure (which raises). -/
inductive ExistingRead where
  | ok (doc : List (String × JsonValue))
  | malformed

/-- Source lines 112-122: if a `.json` sidecar exists at the image's stem,
normalize its filename (rename before load), update the remembered path
only when not a dry run, then load it.  Returns the accumulated effects,
the current `existing_json_path` and the loaded `existing_json`. -/
def wmExistingStage (image_path : FPath) (existing : Option ExistingRead)
    (dry_run : Bool) : WmResult × FPath × Option (List (String × JsonValue)) :=
  match existing with
  | none => (WmResult.empty, ⟨image_path.stem, ".json"⟩, none)
  | some er =>
    let p0 : FPath := ⟨image_path.stem, ".json"⟩
    let newName := fix_floating_point_filenames image_path.stem ++ ".json"
    let r := rename_file p0.name newName dry_run
    let p1 : FPath := if dry_run then p0 else ⟨fix_floating_point_filenames image_path.stem, ".json"⟩
    match er with
    | .malformed => (⟨r.ops, r.planned, r.logs, some .jsonDecodeEscape⟩, p1, none)
    | .ok doc => (⟨r.ops, r.planned, r.logs ++ [.foundExisting p1.name], none⟩, p1, some doc)

/-- Source lines 131-136: scan the metadata in insertion order for the
first value that is a `str` and for which `is_json` holds (i.e.
`json.loads` succeeds); that value is the embedded JSON payload. -/
def selectJsonPayload (parse : String → Option JsonValue) :
    List (String × MetaValue) → Option String
  | [] => none
  | (_, .mStr s) :: rest =>
    if (parse s).isSome then some s else selectJsonPayload parse rest
  | (_, .mOther _) :: rest => selectJsonPayload parse rest

/-- `str(value)` as used by the `.txt` serialisation. -/
def renderMeta : MetaValue → String
  | .mStr s => s
  | .mOther rendering => rendering

/-- The `key: value` lines written to a `.txt` sidecar (source lines
177-179 and 188-190), in mapping order. -/
def txtContent (metadata : List (String × MetaValue)) : FileContent :=
  .txtLines (metadata.map (fun kv => (kv.1, renderMeta kv.2)))

/-- Source lines 181-191 (and the identical fallback at 172-180): write the
metadata as a `.txt` sidecar next to the (possibly renamed) image, or
announce it under dry run. -/
def wmTxtWrite (image_path2 : FPath) (metadata : List (String × MetaValue))
    (dry_run : Bool) : WmResult :=
  let p := image_path2.stem ++ ".txt"
  if dry_run then ⟨[], [.writeFile p (txtContent metadata)], [.drySaveTxt p], none⟩
  else ⟨[.writeFile p (txtContent metadata)], [], [.savedTxt p], none⟩

/-- `command in parsed_json["post_training_processing"]`: Python `in` on a
list compares with `==`, and `str == x` is `False` for non-`str` `x`. -/
def pyInStrList (l : List JsonValue) (command : String) : Bool :=
  l.any (fun v => match v with | .jStr s => s == command | _ => false)

/-- Source lines 154-158: merge with the existing JSON if any — note the
Python truthiness test `if existing_json:` is false for an empty dict as
well as for `None`. -/
def mkMerged (existing_json : Option (List (String × JsonValue)))
    (parsed : List (String × JsonValue)) : List (String × JsonValue) :=
  match existing_json with
  | some e => if e.isEmpty then parsed else merge_json_data e parsed
  | none => parsed

/-- Source lines 140-168, after `json.loads` of the selected payload
succeeded with value `v`: ensure a `post_training_processing` list,
apply the idempotency guard against *that parsed payload's* list, append
the command, merge, and overwrite the sidecar at `existing_json_path`.
A non-object payload (or a non-list `post_training_processing` value)
makes the `in` membership test / item assignment raise a `TypeError`
(`AttributeError` for `.append` on some shapes — all modelled as
`typeError`), which nothing catches. -/
def ensurePtp (kvs : List (String × JsonValue)) : List (String × JsonValue) :=
  if odMember kvs ptpKey then kvs else kvs ++ [(ptpKey, .jArr [])]

/-- Source lines 160-168: serialise the merged document and overwrite the
sidecar at `existing_json_path`, or announce it under dry run. -/
def wmOverwrite (existing_json_path : FPath) (merged : List (String × JsonValue))
    (dry_run : Bool) : WmResult :=
  if dry_run then
    ⟨[], [.writeFile existing_json_path.name (.jsonDoc merged)],
      [.dryOverwrite existing_json_path.name], none⟩
  else
    ⟨[.writeFile existing_json_path.name (.jsonDoc merged)], [],
      [.overwrote existing_json_path.name], none⟩

def wmObjBranch (kvs : List (String × JsonValue)) (existing_json_path : FPath)
    (existing_json : Option (List (String × JsonValue))) (image_path2 : FPath)
    (dry_run force_json : Bool) (command : String) : WmResult :=
  match odLookup (ensurePtp kvs) ptpKey with
  | some (.jArr l) =>
    if pyInStrList l command && !force_json then
      ⟨[], [], [.alreadyProcessed image_path2.name], none⟩
    else
      wmOverwrite existing_json_path
        (mkMerged existing_json (odInsert (ensurePtp kvs) ptpKey (.jArr (l ++ [.jStr command]))))
        dry_run
  | _ => ⟨[], [], [], some .typeError⟩

def wmJsonBranch (v : JsonValue) (existing_json_path : FPath)
    (existing_json : Option (List (String × JsonValue))) (image_path2 : FPath)
    (dry_run force_json : Bool) (command : String) : WmResult :=
  match v with
  | .jObj kvs =>
    wmObjBranch kvs existing_json_path existing_json image_path2 dry_run force_json command
  | _ => ⟨[], [], [], some .typeError⟩

/-- Source lines 124-191, after the existing-sidecar stage succeeded:
optionally normalize and rename the image itself (updating `image_path`
only when not a dry run), then dispatch on the embedded payload. -/
def wmMain (parse : String → Option JsonValue) (image_path : FPath)
    (metadata : List (String × MetaValue)) (exPath : FPath)
    (exJson : Option (List (String × JsonValue)))
    (dry_run fix_filenames force_json : Bool) (command : String) : WmResult :=
  let r2 := if fix_filenames then
      rename_file image_path.name (fix_floating_point_filenames image_path.stem ++ image_path.ext) dry_run
    else WmResult.empty
  let image_path2 := if fix_filenames && !dry_run then
      (⟨fix_floating_point_filenames image_path.stem, image_path.ext⟩ : FPath)
    else image_path
  let r3 :=
    match selectJsonPayload parse metadata with
    | some s =>
      match parse s with
      | some v => wmJsonBranch v exPath exJson image_path2 dry_run force_json command
      | none =>
        (⟨[], [], [.invalidJsonWarning image_path2.name], none⟩ : WmResult).seq
          (wmTxtWrite image_path2 metadata dry_run)
    | none => wmTxtWrite image_path2 metadata dry_run
  r2.seq r3

/-- `write_metadata` (source lines 105-191).  Inputs beyond the source's
parameters: `parse` is the `json.loads` oracle and `existing` describes
the pre-existing `.json` sidecar at the image's stem (`none`: no such
file). -/
def write_metadata (parse : String → Option JsonValue) (image_path : FPath)
    (metadata : List (String × MetaValue)) (existing : Option ExistingRead)
    (dry_run fix_filenames force_json : Bool) (command : String) : WmResult :=
  match wmExistingStage image_path existing dry_run with
  | (r1, exPath, exJson) =>
    match r1.err with
    | some _ => r1
    | none =>
      r1.seq (wmMain parse image_path metadata exPath exJson dry_run fix_filenames force_json command)

/-- Reversed-list prefix test, the building block for suffix tests. -/
def isPrefixL : List Char → List Char → Bool
  | [], _ => true
  | _ :: _, [] => false
  | a :: as, b :: bs => a == b && isPrefixL as bs

/-- `name.endswith(sfx)` on character lists. -/
def endsL (l sfx : List Char) : Bool := isPrefixL sfx.reverse l.reverse

/-- `file.lower().endswith(sfx)` for an already-lowercase `sfx`. -/
def lowerEndsL (l sfx : List Char) : Bool := endsL (l.map Char.toLower) sfx

/-- `file.lower().endswith(('.json', '.txt'))` (source lines 203 / 235). -/
def isSidecarName (s : String) : Bool :=
  lowerEndsL s.toList ".json".toList || lowerEndsL s.toList ".txt".toList

/-- Exact (case-sensitive) test that a name carries one of the raster
extensions the cleaner probes for. -/
def isImgName (s : String) : Bool :=
  endsL s.toList ".png".toList || endsL s.toList ".jpg".toList ||
    endsL s.toList ".jpeg".toList

/-- `pathlib` name splitting: the suffix starts at the last dot, provided
that dot is neither the first nor the last character of the name. -/
def splitStemL (l : List Char) : List Char × List Char :=
  match l.reverse.dropWhile (fun c => c != '.') with
  | '.' :: preR =>
    if preR.isEmpty || (l.reverse.takeWhile (fun c => c != '.')).isEmpty then (l, [])
    else (preR.reverse, '.' :: (l.reverse.takeWhile (fun c => c != '.')).reverse)
  | _ => (l, [])

/-- `Path(name).with_suffix(ext)`. -/
def withSuffixStr (s : String) (ext : String) : String :=
  String.mk ((splitStemL s.toList).1 ++ ext.toList)

/-- The stem of a file name (used to state the shared-stem invariant). -/
def stemOfName (s : String) : String := String.mk (splitStemL s.toList).1

/-- Source lines 237-242: a sidecar is an orphan when no sibling image
exists, probed under `.png`, then `.jpg`, then `.jpeg`. -/
def isOrphan (files : List String) (f : String) : Bool :=
  if withSuffixStr f ".png" ∈ files then false
  else if withSuffixStr f ".jpg" ∈ files then false
  else if withSuffixStr f ".jpeg" ∈ files then false
  else true

/-- One iteration of the cleaner's loop (source lines 234-250), threading
the set of files still on disk: a deleted orphan disappears from it.
(An `os.remove` failure is caught and logged by the source and is outside
this model.) -/
def cleanStep (dry_run : Bool) (st : List String × WmResult) (f : String) :
    List String × WmResult :=
  if isSidecarName f then
    if isOrphan st.1 f then
      if dry_run then
        (st.1, ⟨st.2.ops, st.2.planned ++ [.deleteFile f], st.2.logs ++ [.dryDeleteOrphan f], st.2.err⟩)
      else
        (st.1.erase f, ⟨st.2.ops ++ [.deleteFile f], st.2.planned, st.2.logs ++ [.deletedOrphan f], st.2.err⟩)
    else st
  else st

/-- `clean_orphaned_files` (source lines 193-250), single-directory
traversal branch: `listing` is the `os.listdir` snapshot, which is also
the initial on-disk state.  (The recursive branch runs the identical
per-file logic per directory; the empty-directory sweep is a separate
concern not modelled here.) -/
def clean_orphaned_files (listing : List String) (dry_run : Bool) : WmResult :=
  (listing.foldl (cleanStep dry_run) (listing, WmResult.empty)).2

/-- The sidecar files the cleaner classifies as orphans, by the spec's
static description: sidecar-named, and no sibling image in the original
listing. -/
def orphanTargets (listing : List String) : List String :=
  listing.filter (fun f => isSidecarName f && isOrphan listing f)

/-- One file of the traversal (source lines 252-280): its path, the result
of `extract_image_metadata` (`none` models both a decode failure and empty
metadata — in either case the extractor catches its own exceptions and
returns `None`), and the state of its pre-existing `.json` sidecar. -/
structure ImgFile where
  path : FPath
  extracted : Option (List (String × MetaValue))
  existing : Option ExistingRead

/-- `process_image_files` (source lines 252-280), single-directory branch:
no handler surrounds `write_metadata`, so an exception escaping it aborts
the whole traversal (`WmResult.seq` stops at the first `err`). -/
def process_image_files (parse : String → Option JsonValue) (files : List ImgFile)
    (dry_run fix_filenames force_json : Bool) (command : String) : WmResult :=
  match files with
  | [] => WmResult.empty
  | f :: rest =>
    match f.extracted with
    | none =>
      (⟨[], [], [.noMetadataWarning f.path.name], none⟩ : WmResult).seq
        (process_image_files parse rest dry_run fix_filenames force_json command)
    | some md =>
      ((⟨[], [], [.extracting f.path.name], none⟩ : WmResult).seq
        (write_metadata parse f.path md f.existing dry_run fix_filenames force_json command)).seq
        (process_image_files parse rest dry_run fix_filenames force_json command)

/-- Paths of files written by the performed mutations. -/
def writtenPaths (r : WmResult) : List String :=
  r.ops.filterMap (fun op => match op with | .writeFile p _ => some p | _ => none)

/-- Paths of files a dry run announces it would write. -/
def plannedWritePaths (r : WmResult) : List String :=
  r.planned.filterMap (fun op => match op with | .writeFile p _ => some p | _ => none)

/-- The JSON document carried by a mutation, when it writes one. -/
def jsonDocOf : FsOp → Option (List (String × JsonValue))
  | .writeFile _ (.jsonDoc d) => some d
  | _ => none

/-- JSON documents written (or announced) by the operation. -/
def writtenJsonDocs (r : WmResult) : List (List (String × JsonValue)) :=
  (r.ops ++ r.planned).filterMap jsonDocOf

/-- Replay the renames of a trace on a file name. -/
def applyRenames (ops : List FsOp) (name : String) : String :=
  ops.foldl (fun n op => match op with
    | .rename a b => if n = a then b else n
    | _ => n) name

/-- Does the trace log the idempotency skip message? -/
def hasSkipLog (r : WmResult) : Bool :=
  r.logs.any (fun m => match m with | .alreadyProcessed _ => true | _ => false)

/-! Concrete instances used by the witnesses and counterexamples.  The
`parse` oracles fix `json.loads` on exactly the strings that occur:
`payload0` is the embedded payload `{"a": 1}` (braces escaped), and
`"123"` decodes to the JSON number `123`. -/

def payload0 : String := "\x7b\"a\": 1\x7d"

def parse0 : String → Option JsonValue :=
  fun s => if s = payload0 then some (.jObj [("a", .jNum 1)]) else none

def cmd0 : String := "python export_meta_data_json.py ./images"

def md0 : List (String × MetaValue) := [("parameters", .mStr payload0)]

def imgP : FPath := ⟨"img", ".png"⟩

def ip5 : FPath := ⟨"a1.0", ".png"⟩

def e0 : List (String × JsonValue) := [("b", .jNum 2), (ptpKey, .jArr [.jStr "x"])]

def i0 : List (String × JsonValue) :=
  [(ptpKey, .jArr [.jStr "y"]), ("b", .jNum 9), ("c", .jNum 3)]

def e2doc : List (String × JsonValue) := [(ptpKey, .jArr [.jStr cmd0]), ("a", .jNum 1)]

def e3doc : List (String × JsonValue) := [(ptpKey, .jArr [.jStr "cmd1"]), ("a", .jNum 1)]

def parse10 : String → Option JsonValue :=
  fun s => if s = "123" then some (.jNum 123) else none

def md10 : List (String × MetaValue) := [("v", .mStr "123")]

def fBad : ImgFile := ⟨⟨"a", ".png"⟩, some md0, some .malformed⟩

def fGood : ImgFile := ⟨⟨"b", ".png"⟩, some md0, none⟩

def fSkip : ImgFile := ⟨⟨"s", ".png"⟩, none, none⟩

theorem odInsert_not_mem (m : List (String × JsonValue)) (k : String) (v : JsonValue)
    (h : odMember m k = false) : odInsert m k v = m ++ [(k, v)] := by
  simp [odInsert, h]

theorem odMember_append (a b : List (String × JsonValue)) (k : String) :
    odMember (a ++ b) k = (odMember a k || odMember b k) := by
  induction a with
  | nil => simp [odMember]
  | cons kv rest ih => simp [odMember, ih, Bool.or_assoc]

theorem odMember_false_of_lookup_none (m : List (String × JsonValue)) (k : String)
    (h : odLookup m k = none) : odMember m k = false := by
  induction m with
  | nil => rfl
  | cons kv rest ih =>
    simp only [odLookup] at h
    by_cases hk : (kv.1 == k) = true
    · rw [if_pos hk] at h; exact absurd h (by simp)
    · rw [Bool.not_eq_true] at hk
      rw [if_neg (by simp [hk])] at h
      simp only [odMember, hk, Bool.false_or]
      exact ih h

theorem odMember_true_of_lookup_some (m : List (String × JsonValue)) (k : String)
    (v : JsonValue) (h : odLookup m k = some v) : odMember m k = true := by
  induction m with
  | nil => exact absurd h (by simp [odLookup])
  | cons kv rest ih =>
    simp only [odLookup] at h
    by_cases hk : (kv.1 == k) = true
    · simp [odMember, hk]
    · rw [Bool.not_eq_true] at hk
      rw [if_neg (by simp [hk])] at h
      simp only [odMember, hk, Bool.false_or]
      exact ih h

theorem odLookup_append_right (m : List (String × JsonValue)) (k : String) (v : JsonValue)
    (h : odMember m k = false) : odLookup (m ++ [(k, v)]) k = some v := by
  induction m with
  | nil => simp [odLookup]
  | cons kv rest ih =>
    simp only [odMember, Bool.or_eq_false_iff] at h
    simp only [List.cons_append, odLookup, if_neg (by simp [h.1] : ¬(kv.1 == k) = true)]
    exact ih h.2

theorem odLookup_odInsert_self (m : List (String × JsonValue)) (k : String) (v : JsonValue) :
    odLookup (odInsert m k v) k = some v := by
  by_cases hm : odMember m k = true
  · simp only [odInsert, hm, if_true]
    induction m with
    | nil => exact absurd hm (by simp [odMember])
    | cons kv rest ih =>
      simp only [odMember, Bool.or_eq_true] at hm
      by_cases hk : (kv.1 == k) = true
      · simp [odLookup, hk]
      · simp only [List.map_cons, if_neg hk, odLookup, if_neg hk]
        rcases hm with h1 | h2
        · exact absurd h1 hk
        · exact ih h2
  · rw [Bool.not_eq_true] at hm
    rw [odInsert_not_mem m k v hm]
    exact odLookup_append_right m k v hm

theorem foldl_existing_eq (l : List (String × JsonValue)) :
    ∀ acc : List (String × JsonValue),
    (l.map Prod.fst).Nodup →
    (∀ kv ∈ l, kv.1 ≠ ptpKey → odMember acc kv.1 = false) →
    l.foldl (fun acc kv => if kv.1 == ptpKey then acc else odInsert acc kv.1 kv.2) acc
      = acc ++ l.filter (fun kv => kv.1 != ptpKey) := by
  induction l with
  | nil => intro acc _ _; simp
  | cons kv rest ih =>
    intro acc hnd hmem
    simp only [List.map_cons, List.nodup_cons] at hnd
    simp only [List.foldl_cons]
    by_cases hk : kv.1 = ptpKey
    · rw [if_pos (by simp [hk])]
      rw [ih acc hnd.2 (fun kv2 h2 hk2 => hmem kv2 (List.mem_cons_of_mem kv h2) hk2)]
      rw [List.filter_cons_of_neg (by simp [hk])]
    · rw [if_neg (by simp [hk])]
      have hacc : odMember acc kv.1 = false := hmem kv (List.mem_cons_self kv rest) hk
      rw [odInsert_not_mem acc kv.1 kv.2 hacc]
      have hkv : ((kv.1, kv.2) : String × JsonValue) = kv := rfl
      rw [hkv]
      rw [ih (acc ++ [kv]) hnd.2 ?_]
      · rw [List.filter_cons_of_pos (by simp [hk])]
        simp [List.append_assoc]
      · intro kv2 h2 hk2
        rw [odMember_append]
        have hne : kv.1 ≠ kv2.1 := by
          intro he
          exact hnd.1 (he ▸ List.mem_map_of_mem Prod.fst h2)
        simp only [odMember, Bool.or_eq_false_iff]
        refine ⟨hmem kv2 (List.mem_cons_of_mem kv h2) hk2, by simp [hne]⟩

theorem foldl_incoming_eq (l : List (String × JsonValue)) :
    ∀ acc : List (String × JsonValue),
    (l.map Prod.fst).Nodup →
    l.foldl (fun acc kv =>
        if kv.1 == ptpKey || odMember acc kv.1 then acc else odInsert acc kv.1 kv.2) acc
      = acc ++ l.filter (fun kv => kv.1 != ptpKey && !odMember acc kv.1) := by
  induction l with
  | nil => intro acc _; simp
  | cons kv rest ih =>
    intro acc hnd
    simp only [List.map_cons, List.nodup_cons] at hnd
    simp only [List.foldl_cons]
    by_cases hc : (kv.1 == ptpKey || odMember acc kv.1) = true
    · rw [if_pos hc]
      rw [ih acc hnd.2]
      rw [List.filter_cons_of_neg ?_]
      rcases Bool.or_eq_true_iff.mp hc with h1 | h2
      · have h1e : kv.1 = ptpKey := by simpa using h1
        simp [h1e]
      · simp [h2]
    · rw [if_neg hc]
      simp only [Bool.or_eq_true, not_or, Bool.not_eq_true] at hc
      rw [odInsert_not_mem acc kv.1 kv.2 hc.2]
      have hkv : ((kv.1, kv.2) : String × JsonValue) = kv := rfl
      rw [hkv]
      rw [ih (acc ++ [kv]) hnd.2]
      have hne1 : kv.1 ≠ ptpKey := by simpa using hc.1
      rw [List.filter_cons_of_pos (by simp [hne1, hc.2])]
      rw [List.filter_congr (l := rest)
        (p := fun kv2 => kv2.1 != ptpKey && !odMember (acc ++ [kv]) kv2.1)
        (q := fun kv2 => kv2.1 != ptpKey && !odMember acc kv2.1) ?_]
      · simp [List.append_assoc]
      · intro kv2 h2
        have hne : kv.1 ≠ kv2.1 := by
          intro he
          exact hnd.1 (he ▸ List.mem_map_of_mem Prod.fst h2)
        show (kv2.1 != ptpKey && !odMember (acc ++ [kv]) kv2.1)
            = (kv2.1 != ptpKey && !odMember acc kv2.1)
        rw [odMember_append]
        have hb : (kv.1 == kv2.1) = false := beq_eq_false_iff_ne.mpr hne
        simp [odMember, hb]

theorem odMember_filter_ne (e : List (String × JsonValue)) (k : String) (hk : k ≠ ptpKey) :
    odMember (e.filter (fun kv => kv.1 != ptpKey)) k = odMember e k := by
  induction e with
  | nil => rfl
  | cons kv rest ih =>
    by_cases h : kv.1 = ptpKey
    · rw [List.filter_cons_of_neg (by simp [h])]
      simp only [odMember]
      have hb : (kv.1 == k) = false := beq_eq_false_iff_ne.mpr (by rw [h]; exact Ne.symm hk)
      rw [hb, Bool.false_or, ih]
    · rw [List.filter_cons_of_pos (by simp [h])]
      simp only [odMember, ih]

/-- C1: for every pair of ordered mappings (association lists with
pairwise-distinct keys), `merge_json_data` returns exactly the
spec-described list: the `post_training_processing` entry first (from
`existing` if present, else from `incoming`, absent when absent from
both), then the remaining `existing` entries in their original order with
their original values (so a conflicting `incoming` value never wins),
then the `incoming` entries with new keys in `incoming`'s order. -/
theorem merge_json_data_eq_spec (e i : List (String × JsonValue))
    (he : (e.map Prod.fst).Nodup) (hi : (i.map Prod.fst).Nodup) :
    merge_json_data e i = merge_spec_description e i := by
  have main : ∀ m0 : List (String × JsonValue),
      (∀ k, k ≠ ptpKey → odMember m0 k = false) →
      i.foldl (fun acc kv =>
            if kv.1 == ptpKey || odMember acc kv.1 then acc else odInsert acc kv.1 kv.2)
          (e.foldl (fun acc kv => if kv.1 == ptpKey then acc else odInsert acc kv.1 kv.2) m0)
        = m0 ++ e.filter (fun kv => kv.1 != ptpKey)
            ++ i.filter (fun kv => kv.1 != ptpKey && !(odMember e kv.1)) := by
    intro m0 hm0
    rw [foldl_existing_eq e m0 he (fun kv _ hk => hm0 kv.1 hk)]
    rw [foldl_incoming_eq i (m0 ++ e.filter (fun kv => kv.1 != ptpKey)) hi]
    rw [List.filter_congr (l := i)
      (p := fun kv => kv.1 != ptpKey && !odMember (m0 ++ e.filter (fun kv => kv.1 != ptpKey)) kv.1)
      (q := fun kv => kv.1 != ptpKey && !(odMember e kv.1)) ?_]
    · intro kv _
      by_cases hk : kv.1 = ptpKey
      · show (kv.1 != ptpKey && _) = (kv.1 != ptpKey && _)
        simp [hk]
      · show (kv.1 != ptpKey && !odMember (m0 ++ e.filter (fun kv => kv.1 != ptpKey)) kv.1)
            = (kv.1 != ptpKey && !(odMember e kv.1))
        rw [odMember_append, hm0 kv.1 hk, Bool.false_or, odMember_filter_ne e kv.1 hk]
  rcases hle : odLookup e ptpKey with _ | v
  · rcases hli : odLookup i ptpKey with _ | v
    · simp only [merge_json_data, merge_spec_description, hle, hli]
      exact main [] (fun k _ => rfl)
    · simp only [merge_json_data, merge_spec_description, hle, hli]
      exact main [(ptpKey, v)] (fun k hk => by
        simp [odMember, beq_eq_false_iff_ne.mpr (Ne.symm hk)])
  · simp only [merge_json_data, merge_spec_description, hle]
    exact main [(ptpKey, v)] (fun k hk => by
      simp [odMember, beq_eq_false_iff_ne.mpr (Ne.symm hk)])

theorem odInsert_head_ptp (acc : List (String × JsonValue)) (k : String) (v : JsonValue)
    (hk : k ≠ ptpKey) (w : JsonValue) (h : acc.head? = some (ptpKey, w)) :
    (odInsert acc k v).head? = some (ptpKey, w) := by
  cases acc with
  | nil => simp at h
  | cons a t =>
    simp only [List.head?_cons, Option.some.injEq] at h
    subst h
    have hb : (ptpKey == k) = false := beq_eq_false_iff_ne.mpr (Ne.symm hk)
    simp only [odInsert]
    by_cases hm : odMember ((ptpKey, w) :: t) k = true
    · rw [if_pos hm]
      simp only [List.map_cons, List.head?_cons]
      rw [if_neg (by simp [hb])]
    · rw [if_neg hm]
      simp

theorem foldl_existing_head (l : List (String × JsonValue)) :
    ∀ (acc : List (String × JsonValue)) (w : JsonValue), acc.head? = some (ptpKey, w) →
    (l.foldl (fun acc kv => if kv.1 == ptpKey then acc else odInsert acc kv.1 kv.2) acc).head?
      = some (ptpKey, w) := by
  induction l with
  | nil => intro acc w h; simpa using h
  | cons kv rest ih =>
    intro acc w h
    simp only [List.foldl_cons]
    by_cases hk : kv.1 = ptpKey
    · rw [if_pos (by simp [hk])]
      exact ih acc w h
    · rw [if_neg (by simp [hk])]
      exact ih _ w (odInsert_head_ptp acc kv.1 kv.2 hk w h)

theorem foldl_incoming_head (l : List (String × JsonValue)) :
    ∀ (acc : List (String × JsonValue)) (w : JsonValue), acc.head? = some (ptpKey, w) →
    (l.foldl (fun acc kv =>
        if kv.1 == ptpKey || odMember acc kv.1 then acc else odInsert acc kv.1 kv.2) acc).head?
      = some (ptpKey, w) := by
  induction l with
  | nil => intro acc w h; simpa using h
  | cons kv rest ih =>
    intro acc w h
    simp only [List.foldl_cons]
    by_cases hc : (kv.1 == ptpKey || odMember acc kv.1) = true
    · rw [if_pos hc]
      exact ih acc w h
    · rw [if_neg hc]
      simp only [Bool.or_eq_true, not_or, Bool.not_eq_true] at hc
      have hk : kv.1 ≠ ptpKey := by simpa using hc.1
      exact ih _ w (odInsert_head_ptp acc kv.1 kv.2 hk w h)

theorem merge_json_data_head_left (e i : List (String × JsonValue)) (v : JsonValue)
    (h : odLookup e ptpKey = some v) :
    (merge_json_data e i).head? = some (ptpKey, v) := by
  simp only [merge_json_data, h]
  exact foldl_incoming_head i _ v (foldl_existing_head e [(ptpKey, v)] v rfl)

theorem merge_json_data_head_right (e i : List (String × JsonValue)) (v : JsonValue)
    (h1 : odLookup e ptpKey = none) (h2 : odLookup i ptpKey = some v) :
    (merge_json_data e i).head? = some (ptpKey, v) := by
  simp only [merge_json_data, h1, h2]
  exact foldl_incoming_head i _ v (foldl_existing_head e [(ptpKey, v)] v rfl)

theorem rename_file_same (n : String) (dry_run : Bool) :
    rename_file n n dry_run = WmResult.empty := by
  simp [rename_file]

theorem rename_file_dry_ops (o n : String) : (rename_file o n true).ops = [] := by
  unfold rename_file
  split
  · rfl
  · rfl

theorem WmResult.seq_ops_nil (a b : WmResult) (ha : a.ops = []) (hb : b.ops = []) :
    (a.seq b).ops = [] := by
  unfold WmResult.seq
  cases h : a.err
  · simp [ha, hb]
  · simpa using ha

theorem wmTxtWrite_dry_ops (p : FPath) (md : List (String × MetaValue)) :
    (wmTxtWrite p md true).ops = [] := rfl

theorem wmOverwrite_dry_ops (exPath : FPath) (merged : List (String × JsonValue)) :
    (wmOverwrite exPath merged true).ops = [] := rfl

theorem wmObjBranch_dry_ops (kvs : List (String × JsonValue)) (exPath : FPath)
    (exJson : Option (List (String × JsonValue))) (ip2 : FPath) (force : Bool)
    (c : String) : (wmObjBranch kvs exPath exJson ip2 true force c).ops = [] := by
  unfold wmObjBranch
  rcases h : odLookup (ensurePtp kvs) ptpKey with _ | v2
  · try simp only [h]
  · try simp only [h]
    cases v2 <;> try rfl
    case jArr l =>
      split
      · split
        · rfl
        · exact wmOverwrite_dry_ops _ _
      · rename_i hno
        exact absurd rfl (hno l)

theorem wmJsonBranch_dry_ops (v : JsonValue) (exPath : FPath)
    (exJson : Option (List (String × JsonValue))) (ip2 : FPath) (force : Bool)
    (c : String) : (wmJsonBranch v exPath exJson ip2 true force c).ops = [] := by
  unfold wmJsonBranch
  cases v <;> try rfl
  case jObj kvs => exact wmObjBranch_dry_ops _ _ _ _ _ _

theorem wmMain_dry_ops (parse : String → Option JsonValue) (ip : FPath)
    (md : List (String × MetaValue)) (exPath : FPath)
    (exJson : Option (List (String × JsonValue))) (fix_filenames force_json : Bool)
    (c : String) :
    (wmMain parse ip md exPath exJson true fix_filenames force_json c).ops = [] := by
  unfold wmMain
  refine WmResult.seq_ops_nil _ _ ?_ ?_
  · split
    · exact rename_file_dry_ops _ _
    · rfl
  · split
    · split
      · exact wmJsonBranch_dry_ops _ _ _ _ _ _
      · exact WmResult.seq_ops_nil _ _ rfl (wmTxtWrite_dry_ops _ _)
    · exact wmTxtWrite_dry_ops _ _

theorem wmExistingStage_dry_ops (ip : FPath) (ex : Option ExistingRead) :
    (wmExistingStage ip ex true).1.ops = [] := by
  unfold wmExistingStage
  cases ex with
  | none => rfl
  | some er =>
    cases er with
    | malformed => exact rename_file_dry_ops _ _
    | ok doc => exact rename_file_dry_ops _ _

theorem write_metadata_dry_no_ops (parse : String → Option JsonValue) (ip : FPath)
    (md : List (String × MetaValue)) (ex : Option ExistingRead)
    (fix_filenames force_json : Bool) (c : String) :
    (write_metadata parse ip md ex true fix_filenames force_json c).ops = [] := by
  unfold write_metadata
  have h1 := wmExistingStage_dry_ops ip ex
  rcases hs : wmExistingStage ip ex true with ⟨r1, exPath, exJson⟩
  rw [hs] at h1
  rcases r1 with ⟨ops1, pl1, lg1, err1⟩
  cases err1
  · exact WmResult.seq_ops_nil _ _ h1 (wmMain_dry_ops _ _ _ _ _ _ _ _)
  · exact h1

theorem isPrefixL_append_self (p r : List Char) : isPrefixL p (p ++ r) = true := by
  induction p with
  | nil => rfl
  | cons c cs ih => simp [isPrefixL, ih]

theorem endsL_append (a sfx : List Char) : endsL (a ++ sfx) sfx = true := by
  unfold endsL
  rw [List.reverse_append]
  exact isPrefixL_append_self _ _

theorem isPrefixL_head (c : Char) (cs l : List Char) (h : isPrefixL (c :: cs) l = true) :
    l.head? = some c := by
  cases l with
  | nil => simp [isPrefixL] at h
  | cons b bs =>
    simp only [isPrefixL, Bool.and_eq_true] at h
    have hc : c = b := by simpa using h.1
    simp [hc]

theorem sidecar_lower_last (s : String) (h : isSidecarName s = true) :
    (s.toList.map Char.toLower).reverse.head? = some 'n' ∨
    (s.toList.map Char.toLower).reverse.head? = some 't' := by
  unfold isSidecarName lowerEndsL endsL at h
  rcases Bool.or_eq_true_iff.mp h with h1 | h1
  · left
    have e : (".json".toList).reverse = ['n', 'o', 's', 'j', '.'] := rfl
    rw [e] at h1
    exact isPrefixL_head 'n' _ _ h1
  · right
    have e : (".txt".toList).reverse = ['t', 'x', 't', '.'] := rfl
    rw [e] at h1
    exact isPrefixL_head 't' _ _ h1

theorem img_last (g : String) (h : isImgName g = true) :
    g.toList.reverse.head? = some 'g' := by
  unfold isImgName endsL at h
  rcases Bool.or_eq_true_iff.mp h with h1 | h1
  · rcases Bool.or_eq_true_iff.mp h1 with h2 | h2
    · have e : (".png".toList).reverse = ['g', 'n', 'p', '.'] := rfl
      rw [e] at h2
      exact isPrefixL_head 'g' _ _ h2
    · have e : (".jpg".toList).reverse = ['g', 'p', 'j', '.'] := rfl
      rw [e] at h2
      exact isPrefixL_head 'g' _ _ h2
  · have e : (".jpeg".toList).reverse = ['g', 'e', 'p', 'j', '.'] := rfl
    rw [e] at h1
    exact isPrefixL_head 'g' _ _ h1

theorem sidecar_ne_img (f g : String) (hf : isSidecarName f = true)
    (hg : isImgName g = true) : g ≠ f := by
  intro he
  subst he
  have h1 := img_last g hg
  rcases sidecar_lower_last g hf with h2 | h2 <;>
  · rw [← List.map_reverse, List.head?_map, h1] at h2
    exact absurd h2 (by decide)

theorem isImgName_withSuffix_png (f : String) :
    isImgName (withSuffixStr f ".png") = true := by
  unfold isImgName withSuffixStr
  have : (String.mk ((splitStemL f.toList).1 ++ ".png".toList)).toList
      = (splitStemL f.toList).1 ++ ".png".toList := rfl
  rw [this, endsL_append]
  rfl

theorem isImgName_withSuffix_jpg (f : String) :
    isImgName (withSuffixStr f ".jpg") = true := by
  unfold isImgName withSuffixStr
  have : (String.mk ((splitStemL f.toList).1 ++ ".jpg".toList)).toList
      = (splitStemL f.toList).1 ++ ".jpg".toList := rfl
  rw [this, endsL_append]
  simp

theorem isImgName_withSuffix_jpeg (f : String) :
    isImgName (withSuffixStr f ".jpeg") = true := by
  unfold isImgName withSuffixStr
  have : (String.mk ((splitStemL f.toList).1 ++ ".jpeg".toList)).toList
      = (splitStemL f.toList).1 ++ ".jpeg".toList := rfl
  rw [this, endsL_append]
  simp

theorem isOrphan_congr (cur listing : List String) (f : String)
    (h : ∀ g, isImgName g = true → (g ∈ cur ↔ g ∈ listing)) :
    isOrphan cur f = isOrphan listing f := by
  unfold isOrphan
  have h1 := h (withSuffixStr f ".png") (isImgName_withSuffix_png f)
  have h2 := h (withSuffixStr f ".jpg") (isImgName_withSuffix_jpg f)
  have h3 := h (withSuffixStr f ".jpeg") (isImgName_withSuffix_jpeg f)
  simp only [h1, h2, h3]

theorem clean_fold (dry_run : Bool) (listing : List String) :
    ∀ (todo cur : List String) (res : WmResult),
    (∀ g, isImgName g = true → (g ∈ cur ↔ g ∈ listing)) →
    (todo.foldl (cleanStep dry_run) (cur, res)).2 =
      ⟨res.ops ++ (if dry_run then []
          else (todo.filter (fun f => isSidecarName f && isOrphan listing f)).map FsOp.deleteFile),
        res.planned ++ (if dry_run then
          (todo.filter (fun f => isSidecarName f && isOrphan listing f)).map FsOp.deleteFile else []),
        res.logs ++ (todo.filter (fun f => isSidecarName f && isOrphan listing f)).map
          (fun f => if dry_run then LogMsg.dryDeleteOrphan f else LogMsg.deletedOrphan f),
        res.err⟩ := by
  cases dry_run
  · intro todo
    induction todo with
    | nil => intro cur res hinv; cases res; simp
    | cons f rest ih =>
      intro cur res hinv
      rw [List.foldl_cons]
      by_cases hsc : isSidecarName f = true
      · by_cases ho : isOrphan listing f = true
        · have hstep : cleanStep false (cur, res) f
              = (cur.erase f, ⟨res.ops ++ [.deleteFile f], res.planned,
                  res.logs ++ [.deletedOrphan f], res.err⟩) := by
            unfold cleanStep
            rw [if_pos hsc, if_pos (by rw [isOrphan_congr cur listing f hinv]; exact ho)]
            rfl
          rw [hstep]
          rw [ih (cur.erase f) _ ?_]
          · rw [List.filter_cons_of_pos (by simp [hsc, ho])]
            simp
          · intro g hg
            rw [List.mem_erase_of_ne (sidecar_ne_img f g hsc hg)]
            exact hinv g hg
        · have hstep : cleanStep false (cur, res) f = (cur, res) := by
            unfold cleanStep
            rw [if_pos hsc, if_neg (by rw [isOrphan_congr cur listing f hinv]; simpa using ho)]
          rw [hstep, ih cur res hinv, List.filter_cons_of_neg (by simp [ho])]
      · have hstep : cleanStep false (cur, res) f = (cur, res) := by
          unfold cleanStep
          rw [if_neg (by simpa using hsc)]
        rw [hstep, ih cur res hinv, List.filter_cons_of_neg (by simp [hsc])]
  · intro todo
    induction todo with
    | nil => intro cur res hinv; cases res; simp
    | cons f rest ih =>
      intro cur res hinv
      rw [List.foldl_cons]
      by_cases hsc : isSidecarName f = true
      · by_cases ho : isOrphan listing f = true
        · have hstep : cleanStep true (cur, res) f
              = (cur, ⟨res.ops, res.planned ++ [.deleteFile f],
                  res.logs ++ [.dryDeleteOrphan f], res.err⟩) := by
            unfold cleanStep
            rw [if_pos hsc, if_pos (by rw [isOrphan_congr cur listing f hinv]; exact ho)]
            rfl
          rw [hstep]
          rw [ih cur _ hinv]
          rw [List.filter_cons_of_pos (by simp [hsc, ho])]
          simp
        · have hstep : cleanStep true (cur, res) f = (cur, res) := by
            unfold cleanStep
            rw [if_pos hsc, if_neg (by rw [isOrphan_congr cur listing f hinv]; simpa using ho)]
          rw [hstep, ih cur res hinv, List.filter_cons_of_neg (by simp [ho])]
      · have hstep : cleanStep true (cur, res) f = (cur, res) := by
          unfold cleanStep
          rw [if_neg (by simpa using hsc)]
        rw [hstep, ih cur res hinv, List.filter_cons_of_neg (by simp [hsc])]

theorem wmOverwrite_planned_eq_ops (exPath : FPath) (merged : List (String × JsonValue)) :
    (wmOverwrite exPath merged true).planned = (wmOverwrite exPath merged false).ops := rfl

theorem wmObjBranch_planned_eq_ops (kvs : List (String × JsonValue)) (exPath : FPath)
    (exJson : Option (List (String × JsonValue))) (ip2 : FPath) (force : Bool) (c : String) :
    (wmObjBranch kvs exPath exJson ip2 true force c).planned
      = (wmObjBranch kvs exPath exJson ip2 false force c).ops := by
  unfold wmObjBranch
  rcases h : odLookup (ensurePtp kvs) ptpKey with _ | v2
  · try simp only [h]
  · try simp only [h]
    cases v2 <;> try rfl
    case jArr l =>
      split
      · split
        · rfl
        · exact wmOverwrite_planned_eq_ops _ _
      · rename_i hno
        exact absurd rfl (hno l)

theorem wmJsonBranch_planned_eq_ops (v : JsonValue) (exPath : FPath)
    (exJson : Option (List (String × JsonValue))) (ip2 : FPath) (force : Bool) (c : String) :
    (wmJsonBranch v exPath exJson ip2 true force c).planned
      = (wmJsonBranch v exPath exJson ip2 false force c).ops := by
  unfold wmJsonBranch
  cases v <;> try rfl
  case jObj kvs => exact wmObjBranch_planned_eq_ops _ _ _ _ _ _

theorem wmMain_norm_planned_eq_ops (parse : String → Option JsonValue) (ip : FPath)
    (md : List (String × MetaValue)) (exPath : FPath)
    (exJson : Option (List (String × JsonValue))) (fix_filenames force_json : Bool)
    (c : String) (h : fix_floating_point_filenames ip.stem = ip.stem) :
    (wmMain parse ip md exPath exJson true fix_filenames force_json c).planned
      = (wmMain parse ip md exPath exJson false fix_filenames force_json c).ops := by
  unfold wmMain
  simp only [FPath.name, h]
  have hr2 : (if fix_filenames then rename_file (ip.stem ++ ip.ext) (ip.stem ++ ip.ext) true
      else WmResult.empty) = WmResult.empty := by
    split <;> simp [rename_file_same]
  have hr2' : (if fix_filenames then rename_file (ip.stem ++ ip.ext) (ip.stem ++ ip.ext) false
      else WmResult.empty) = WmResult.empty := by
    split <;> simp [rename_file_same]
  rw [hr2, hr2']
  have hip2t : (if fix_filenames && !true then
      (⟨ip.stem, ip.ext⟩ : FPath) else ip) = ip := by
    simp
  have hip2f : (if fix_filenames && !false then
      (⟨ip.stem, ip.ext⟩ : FPath) else ip) = ip := by
    cases ip
    split <;> rfl
  rw [hip2t, hip2f]
  rcases hsel : selectJsonPayload parse md with _ | s
  · simp only [hsel]
    show (WmResult.empty.seq (wmTxtWrite ip md true)).planned
        = (WmResult.empty.seq (wmTxtWrite ip md false)).ops
    rfl
  · simp only [hsel]
    rcases hp : parse s with _ | v
    · simp only [hp]
      show (WmResult.empty.seq ((⟨[], [], [.invalidJsonWarning ip.name], none⟩ : WmResult).seq
          (wmTxtWrite ip md true))).planned
        = (WmResult.empty.seq ((⟨[], [], [.invalidJsonWarning ip.name], none⟩ : WmResult).seq
          (wmTxtWrite ip md false))).ops
      rfl
    · simp only [hp]
      show (WmResult.empty.seq (wmJsonBranch v exPath exJson ip true force_json c)).planned
        = (WmResult.empty.seq (wmJsonBranch v exPath exJson ip false force_json c)).ops
      show (wmJsonBranch v exPath exJson ip true force_json c).planned
        = (wmJsonBranch v exPath exJson ip false force_json c).ops
      exact wmJsonBranch_planned_eq_ops _ _ _ _ _ _

theorem write_metadata_norm_planned_eq_ops (parse : String → Option JsonValue) (ip : FPath)
    (md : List (String × MetaValue)) (ex : Option ExistingRead)
    (fix_filenames force_json : Bool) (c : String)
    (h : fix_floating_point_filenames ip.stem = ip.stem) :
    (write_metadata parse ip md ex true fix_filenames force_json c).planned
      = (write_metadata parse ip md ex false fix_filenames force_json c).ops := by
  cases ex with
  | none =>
    show (WmResult.empty.seq (wmMain parse ip md ⟨ip.stem, ".json"⟩ none true
        fix_filenames force_json c)).planned
      = (WmResult.empty.seq (wmMain parse ip md ⟨ip.stem, ".json"⟩ none false
        fix_filenames force_json c)).ops
    show (wmMain parse ip md ⟨ip.stem, ".json"⟩ none true fix_filenames force_json c).planned
      = (wmMain parse ip md ⟨ip.stem, ".json"⟩ none false fix_filenames force_json c).ops
    exact wmMain_norm_planned_eq_ops parse ip md _ none fix_filenames force_json c h
  | some er =>
    cases er with
    | malformed =>
      unfold write_metadata wmExistingStage
      simp only [FPath.name, h, rename_file_same]
      rfl
    | ok doc =>
      unfold write_metadata wmExistingStage
      simp only [FPath.name, h, rename_file_same, ite_self]
      show ((⟨[], [], [.foundExisting (⟨ip.stem, ".json"⟩ : FPath).name], none⟩ : WmResult).seq
          (wmMain parse ip md ⟨ip.stem, ".json"⟩ (some doc) true fix_filenames force_json c)).planned
        = ((⟨[], [], [.foundExisting (⟨ip.stem, ".json"⟩ : FPath).name], none⟩ : WmResult).seq
          (wmMain parse ip md ⟨ip.stem, ".json"⟩ (some doc) false fix_filenames force_json c)).ops
      show (wmMain parse ip md ⟨ip.stem, ".json"⟩ (some doc) true fix_filenames force_json c).planned
        = (wmMain parse ip md ⟨ip.stem, ".json"⟩ (some doc) false fix_filenames force_json c).ops
      exact wmMain_norm_planned_eq_ops parse ip md _ (some doc) fix_filenames force_json c h

theorem writtenJsonDocs_seq (a b : WmResult) (ha : a.err = none)
    (h1 : a.ops.filterMap jsonDocOf = []) (h2 : a.planned.filterMap jsonDocOf = []) :
    writtenJsonDocs (a.seq b) = writtenJsonDocs b := by
  unfold writtenJsonDocs WmResult.seq
  rw [ha]
  simp [List.filterMap_append, h1, h2]

theorem rename_file_no_docs_ops (o n : String) (dry : Bool) :
    (rename_file o n dry).ops.filterMap jsonDocOf = [] := by
  unfold rename_file
  split
  · rfl
  · split <;> simp [jsonDocOf]

theorem rename_file_no_docs_planned (o n : String) (dry : Bool) :
    (rename_file o n dry).planned.filterMap jsonDocOf = [] := by
  unfold rename_file
  split
  · rfl
  · split <;> simp [jsonDocOf]

theorem rename_file_err_none (o n : String) (dry : Bool) :
    (rename_file o n dry).err = none := by
  unfold rename_file
  split
  · rfl
  · split <;> rfl

theorem wmTxtWrite_no_docs (p : FPath) (md : List (String × MetaValue)) (dry : Bool) :
    writtenJsonDocs (wmTxtWrite p md dry) = [] := by
  unfold writtenJsonDocs wmTxtWrite
  split <;> simp [jsonDocOf, txtContent]

theorem wmOverwrite_docs (exPath : FPath) (merged : List (String × JsonValue)) (dry : Bool) :
    writtenJsonDocs (wmOverwrite exPath merged dry) = [merged] := by
  unfold writtenJsonDocs wmOverwrite
  split <;> simp [jsonDocOf]

theorem ensurePtp_lookup_none (kvs : List (String × JsonValue))
    (h : odLookup kvs ptpKey = none) :
    odLookup (ensurePtp kvs) ptpKey = some (.jArr []) := by
  unfold ensurePtp
  rw [if_neg (by simp [odMember_false_of_lookup_none kvs ptpKey h])]
  exact odLookup_append_right kvs ptpKey (.jArr []) (odMember_false_of_lookup_none kvs ptpKey h)

theorem ensurePtp_lookup_some (kvs : List (String × JsonValue)) (v : JsonValue)
    (h : odLookup kvs ptpKey = some v) :
    odLookup (ensurePtp kvs) ptpKey = some v := by
  unfold ensurePtp
  rw [if_pos (odMember_true_of_lookup_some kvs ptpKey v h)]
  exact h

theorem mkMerged_some_ne (e p : List (String × JsonValue)) (he : e ≠ []) :
    mkMerged (some e) p = merge_json_data e p := by
  show (if e.isEmpty = true then p else merge_json_data e p) = merge_json_data e p
  rw [if_neg (by simpa [List.isEmpty_iff] using he)]

theorem wmObjBranch_docs_head (kvs : List (String × JsonValue)) (exPath : FPath)
    (e : List (String × JsonValue)) (ip2 : FPath) (dry force : Bool) (c : String)
    (he : e ≠ []) :
    ∀ d ∈ writtenJsonDocs (wmObjBranch kvs exPath (some e) ip2 dry force c),
      ∃ v, d.head? = some (ptpKey, v) := by
  intro d hd
  unfold wmObjBranch at hd
  rcases hlk : odLookup (ensurePtp kvs) ptpKey with _ | v2
  · rw [hlk] at hd
    simp [writtenJsonDocs] at hd
  · rw [hlk] at hd
    cases v2
    case jArr l0 =>
      have hd2 : d ∈ writtenJsonDocs
          (if pyInStrList l0 c && !force then
            (⟨[], [], [.alreadyProcessed ip2.name], none⟩ : WmResult)
          else wmOverwrite exPath
            (mkMerged (some e) (odInsert (ensurePtp kvs) ptpKey (.jArr (l0 ++ [.jStr c])))) dry) := hd
      clear hd
      by_cases hskip : (pyInStrList l0 c && !force) = true
      · rw [if_pos hskip] at hd2
        simp [writtenJsonDocs] at hd2
      · rw [if_neg hskip] at hd2
        rw [wmOverwrite_docs] at hd2
        rw [mkMerged_some_ne e _ he] at hd2
        rcases List.mem_singleton.mp hd2 with rfl
        rcases hle : odLookup e ptpKey with _ | v
        · refine ⟨.jArr (l0 ++ [.jStr c]), ?_⟩
          exact merge_json_data_head_right e _ _ hle
            (odLookup_odInsert_self (ensurePtp kvs) ptpKey (.jArr (l0 ++ [.jStr c])))
        · exact ⟨v, merge_json_data_head_left e _ v hle⟩
    all_goals simp [writtenJsonDocs] at hd

theorem wmObjBranch_docs_force (kvs : List (String × JsonValue)) (exPath : FPath)
    (e : List (String × JsonValue)) (ip2 : FPath) (dry : Bool) (c : String)
    (l : List JsonValue) (he : e ≠ []) (hl : odLookup e ptpKey = some (.jArr l))
    (hshape : odLookup kvs ptpKey = none ∨ ∃ l2, odLookup kvs ptpKey = some (.jArr l2)) :
    ∃ d, writtenJsonDocs (wmObjBranch kvs exPath (some e) ip2 dry true c) = [d] ∧
      d.head? = some (ptpKey, .jArr l) := by
  have hlk : ∃ l0, odLookup (ensurePtp kvs) ptpKey = some (.jArr l0) := by
    rcases hshape with h0 | ⟨l2, h2⟩
    · exact ⟨[], ensurePtp_lookup_none kvs h0⟩
    · exact ⟨l2, ensurePtp_lookup_some kvs _ h2⟩
  rcases hlk with ⟨l0, hlk⟩
  refine ⟨merge_json_data e (odInsert (ensurePtp kvs) ptpKey (.jArr (l0 ++ [.jStr c]))), ?_, ?_⟩
  · simp only [wmObjBranch, hlk]
    rw [if_neg (by simp)]
    rw [wmOverwrite_docs]
    rw [mkMerged_some_ne e _ he]
  · exact merge_json_data_head_left e _ _ hl

theorem wmJsonBranch_docs_head (v : JsonValue) (exPath : FPath)
    (e : List (String × JsonValue)) (ip2 : FPath) (dry force : Bool) (c : String)
    (he : e ≠ []) :
    ∀ d ∈ writtenJsonDocs (wmJsonBranch v exPath (some e) ip2 dry force c),
      ∃ w, d.head? = some (ptpKey, w) := by
  intro d hd
  unfold wmJsonBranch at hd
  cases v
  case jObj kvs => exact wmObjBranch_docs_head kvs exPath e ip2 dry force c he d hd
  all_goals simp [writtenJsonDocs] at hd

theorem writtenJsonDocs_seq_fixstage (ip : FPath) (dry fix_filenames : Bool) (b : WmResult) :
    writtenJsonDocs ((if fix_filenames then
        rename_file ip.name (fix_floating_point_filenames ip.stem ++ ip.ext) dry
      else WmResult.empty).seq b) = writtenJsonDocs b := by
  split
  · exact writtenJsonDocs_seq _ _ (rename_file_err_none _ _ _)
      (rename_file_no_docs_ops _ _ _) (rename_file_no_docs_planned _ _ _)
  · exact writtenJsonDocs_seq _ _ rfl rfl rfl

theorem writtenJsonDocs_warn_seq (p : String) (b : WmResult) :
    writtenJsonDocs ((⟨[], [], [.invalidJsonWarning p], none⟩ : WmResult).seq b)
      = writtenJsonDocs b :=
  writtenJsonDocs_seq _ _ rfl rfl rfl

theorem wmMain_docs_head (parse : String → Option JsonValue) (ip : FPath)
    (md : List (String × MetaValue)) (exPath : FPath) (e : List (String × JsonValue))
    (dry fix_filenames force_json : Bool) (c : String) (he : e ≠ []) :
    ∀ d ∈ writtenJsonDocs (wmMain parse ip md exPath (some e) dry fix_filenames force_json c),
      ∃ w, d.head? = some (ptpKey, w) := by
  intro d hd
  simp only [wmMain] at hd
  rw [writtenJsonDocs_seq_fixstage] at hd
  rcases hsel : selectJsonPayload parse md with _ | s
  · simp only [hsel] at hd
    rw [wmTxtWrite_no_docs] at hd
    simp at hd
  · simp only [hsel] at hd
    rcases hp : parse s with _ | v
    · simp only [hp] at hd
      rw [writtenJsonDocs_warn_seq, wmTxtWrite_no_docs] at hd
      simp at hd
    · simp only [hp] at hd
      exact wmJsonBranch_docs_head v exPath e _ dry force_json c he d hd

theorem writtenJsonDocs_okstage (o n : String) (dry : Bool) (lg : LogMsg) (b : WmResult) :
    writtenJsonDocs ((⟨(rename_file o n dry).ops, (rename_file o n dry).planned,
        (rename_file o n dry).logs ++ [lg], none⟩ : WmResult).seq b) = writtenJsonDocs b :=
  writtenJsonDocs_seq _ _ rfl (rename_file_no_docs_ops _ _ _) (rename_file_no_docs_planned _ _ _)

/-- C4 (amended): whenever `write_metadata` merges with a nonempty
well-formed pre-existing sidecar, every JSON document it writes (or
announces under dry run) has `post_training_processing` as its first key.
The original claim fails for first writes with no pre-existing sidecar,
where the key is appended last (see the counterexample). -/
theorem write_metadata_merged_ptp_first (parse : String → Option JsonValue) (ip : FPath)
    (md : List (String × MetaValue)) (e : List (String × JsonValue))
    (dry fix_filenames force_json : Bool) (c : String) (he : e ≠ []) :
    ∀ d ∈ writtenJsonDocs (write_metadata parse ip md (some (.ok e)) dry fix_filenames force_json c),
      ∃ w, d.head? = some (ptpKey, w) := by
  intro d hd
  simp only [write_metadata, wmExistingStage] at hd
  rw [writtenJsonDocs_okstage] at hd
  exact wmMain_docs_head parse ip md _ e dry fix_filenames force_json c he d hd

/-- C3 (amended): re-running `write_metadata` with `force_json` on an
image with a nonempty pre-existing JSON sidecar rewrites exactly one
merged document, but its `post_training_processing` value is the
pre-existing sidecar's list verbatim — merge precedence lets the existing
value win for the provenance key too, so the freshly appended invocation
command is discarded rather than appended. -/
theorem write_metadata_force_keeps_existing_ptp (parse : String → Option JsonValue) (ip : FPath)
    (md : List (String × MetaValue)) (e : List (String × JsonValue))
    (dry fix_filenames : Bool) (c s : String) (kvs : List (String × JsonValue))
    (l : List JsonValue)
    (he : e ≠ []) (hl : odLookup e ptpKey = some (.jArr l))
    (hsel : selectJsonPayload parse md = some s)
    (hp : parse s = some (.jObj kvs))
    (hshape : odLookup kvs ptpKey = none ∨ ∃ l2, odLookup kvs ptpKey = some (.jArr l2)) :
    ∃ d, writtenJsonDocs (write_metadata parse ip md (some (.ok e)) dry fix_filenames true c)
        = [d] ∧ d.head? = some (ptpKey, .jArr l) := by
  simp only [write_metadata, wmExistingStage]
  rw [writtenJsonDocs_okstage]
  simp only [wmMain]
  rw [writtenJsonDocs_seq_fixstage]
  simp only [hsel, hp]
  exact wmObjBranch_docs_force kvs _ e _ dry c l he hl hshape

theorem takeWhile_append_all {p : Char → Bool} (a b : List Char)
    (h : ∀ c ∈ a, p c = true) : (a ++ b).takeWhile p = a ++ b.takeWhile p := by
  induction a with
  | nil => simp
  | cons c cs ih =>
    simp only [List.cons_append, List.takeWhile_cons, h c (List.mem_cons_self c cs)]
    rw [ih (fun c2 h2 => h c2 (List.mem_cons_of_mem c h2))]
    simp

theorem dropWhile_append_all {p : Char → Bool} (a b : List Char)
    (h : ∀ c ∈ a, p c = true) : (a ++ b).dropWhile p = b.dropWhile p := by
  induction a with
  | nil => simp
  | cons c cs ih =>
    simp only [List.cons_append, List.dropWhile_cons, h c (List.mem_cons_self c cs)]
    rw [ih (fun c2 h2 => h c2 (List.mem_cons_of_mem c h2))]
    simp

theorem splitStemL_append_ext (s ext2 : List Char) (hs : s ≠ []) (hx : ext2 ≠ [])
    (hnd : ∀ c ∈ ext2, c ≠ '.') :
    splitStemL (s ++ '.' :: ext2) = (s, '.' :: ext2) := by
  unfold splitStemL
  have hrev : (s ++ '.' :: ext2).reverse = ext2.reverse ++ '.' :: s.reverse := by
    rw [List.reverse_append, List.reverse_cons, List.append_assoc]
    simp
  rw [hrev]
  have hall : ∀ c ∈ ext2.reverse, (c != '.') = true := by
    intro c hc
    simpa using hnd c (List.mem_reverse.mp hc)
  have h1 : List.takeWhile (fun c => c != '.') ('.' :: s.reverse) = [] := by
    simp [List.takeWhile_cons]
  have h2 : List.dropWhile (fun c => c != '.') ('.' :: s.reverse) = '.' :: s.reverse := by
    simp [List.dropWhile_cons]
  rw [takeWhile_append_all _ _ hall, dropWhile_append_all _ _ hall, h1, h2]
  simp only [List.append_nil]
  rw [if_neg ?_]
  · simp
  · simp [hs, hx]

theorem string_toList_ne (s : String) (hs : s ≠ "") : s.toList ≠ [] := by
  intro h
  apply hs
  cases s with
  | mk data => simpa [String.toList] using congrArg String.mk h

theorem stemOfName_ext (s : String) (ext2 : List Char) (hs : s ≠ "") (hx : ext2 ≠ [])
    (hnd : ∀ c ∈ ext2, c ≠ '.') :
    stemOfName (s ++ String.mk ('.' :: ext2)) = s := by
  unfold stemOfName
  have hl : (s ++ String.mk ('.' :: ext2)).toList = s.toList ++ '.' :: ext2 := by
    simp [String.toList, String.data_append]
  rw [hl, splitStemL_append_ext s.toList ext2 (string_toList_ne s hs) hx hnd]
  cases s with
  | mk data => rfl

theorem stemOfName_json (s : String) (hs : s ≠ "") : stemOfName (s ++ ".json") = s :=
  stemOfName_ext s ['j', 's', 'o', 'n'] hs (by simp) (by decide)

theorem stemOfName_txt (s : String) (hs : s ≠ "") : stemOfName (s ++ ".txt") = s :=
  stemOfName_ext s ['t', 'x', 't'] hs (by simp) (by decide)

theorem wmObjBranch_ops_shape (kvs : List (String × JsonValue)) (exPath : FPath)
    (exJson : Option (List (String × JsonValue))) (ip2 : FPath) (force : Bool) (c : String) :
    ∀ op ∈ (wmObjBranch kvs exPath exJson ip2 false force c).ops,
      ∃ cont, op = .writeFile exPath.name cont := by
  intro op hop
  unfold wmObjBranch at hop
  rcases hlk : odLookup (ensurePtp kvs) ptpKey with _ | v2
  · simp only [hlk] at hop
    simp at hop
  · simp only [hlk] at hop
    cases v2
    case jArr l0 =>
      rcases (by exact hop :
          op ∈ (if pyInStrList l0 c && !force then
            (⟨[], [], [.alreadyProcessed ip2.name], none⟩ : WmResult)
          else wmOverwrite exPath
            (mkMerged exJson (odInsert (ensurePtp kvs) ptpKey (.jArr (l0 ++ [.jStr c])))) false).ops)
        with hop2
      by_cases hskip : (pyInStrList l0 c && !force) = true
      · rw [if_pos hskip] at hop2
        simp at hop2
      · rw [if_neg hskip] at hop2
        exact ⟨_, List.mem_singleton.mp hop2⟩
    all_goals simp at hop

theorem wmTxtWrite_ops_shape (ip2 : FPath) (md : List (String × MetaValue)) :
    ∀ op ∈ (wmTxtWrite ip2 md false).ops,
      ∃ cont, op = .writeFile (ip2.stem ++ ".txt") cont := by
  intro op hop
  unfold wmTxtWrite at hop
  simp at hop
  exact ⟨_, hop⟩

theorem wmMain_norm_ops_shape (parse : String → Option JsonValue) (ip : FPath)
    (md : List (String × MetaValue)) (exPath : FPath)
    (exJson : Option (List (String × JsonValue))) (fix_filenames force_json : Bool)
    (c : String) (h : fix_floating_point_filenames ip.stem = ip.stem) :
    ∀ op ∈ (wmMain parse ip md exPath exJson false fix_filenames force_json c).ops,
      (∃ cont, op = .writeFile exPath.name cont) ∨
      (∃ cont, op = .writeFile (ip.stem ++ ".txt") cont) := by
  intro op hop
  simp only [wmMain, FPath.name, h] at hop
  have hr2 : (if fix_filenames then rename_file (ip.stem ++ ip.ext) (ip.stem ++ ip.ext) false
      else WmResult.empty) = WmResult.empty := by
    split <;> simp [rename_file_same]
  have hip2 : (if fix_filenames && !false then
      (⟨ip.stem, ip.ext⟩ : FPath) else ip) = ip := by
    cases ip
    split <;> rfl
  rw [hr2, hip2] at hop
  rcases hsel : selectJsonPayload parse md with _ | s
  · simp only [hsel] at hop
    have hop2 : op ∈ (wmTxtWrite ip md false).ops := hop
    rcases wmTxtWrite_ops_shape ip md op hop2 with ⟨cont, rfl⟩
    exact Or.inr ⟨cont, rfl⟩
  · simp only [hsel] at hop
    rcases hp : parse s with _ | v
    · simp only [hp] at hop
      have hop2 : op ∈ (wmTxtWrite ip md false).ops := hop
      rcases wmTxtWrite_ops_shape ip md op hop2 with ⟨cont, rfl⟩
      exact Or.inr ⟨cont, rfl⟩
    · simp only [hp] at hop
      have hop2 : op ∈ (wmJsonBranch v exPath exJson ip false force_json c).ops := hop
      unfold wmJsonBranch at hop2
      cases v
      case jObj kvs =>
        rcases wmObjBranch_ops_shape kvs exPath exJson ip force_json c op hop2 with ⟨cont, rfl⟩
        exact Or.inl ⟨cont, rfl⟩
      all_goals simp at hop2

/-- C5 (amended): after a single non-dry-run `write_metadata` on an image
whose filename stem is already in normalized form, every mutation
performed is a file write whose path carries the image's stem — no rename
happens and image and sidecar share the stem.  The original claim fails
for unnormalized stems (see the counterexample: the sidecar is renamed
while the image keeps its stem). -/
theorem write_metadata_norm_stems (parse : String → Option JsonValue) (ip : FPath)
    (md : List (String × MetaValue)) (ex : Option ExistingRead)
    (fix_filenames force_json : Bool) (c : String)
    (h : fix_floating_point_filenames ip.stem = ip.stem) (hs : ip.stem ≠ "") :
    ∀ op ∈ (write_metadata parse ip md ex false fix_filenames force_json c).ops,
      ∃ p cont, op = .writeFile p cont ∧ stemOfName p = ip.stem := by
  intro op hop
  cases ex with
  | none =>
    have hop2 : op ∈ (wmMain parse ip md ⟨ip.stem, ".json"⟩ none false
        fix_filenames force_json c).ops := hop
    rcases wmMain_norm_ops_shape parse ip md ⟨ip.stem, ".json"⟩ none fix_filenames
        force_json c h op hop2 with ⟨cont, rfl⟩ | ⟨cont, rfl⟩
    · exact ⟨_, cont, rfl, stemOfName_json ip.stem hs⟩
    · exact ⟨_, cont, rfl, stemOfName_txt ip.stem hs⟩
  | some er =>
    cases er with
    | malformed =>
      simp only [write_metadata, wmExistingStage, FPath.name, h, rename_file_same] at hop
      simp [WmResult.empty] at hop
    | ok doc =>
      simp only [write_metadata, wmExistingStage, FPath.name, h, rename_file_same,
        ite_self] at hop
      have hop2 : op ∈ (wmMain parse ip md ⟨ip.stem, ".json"⟩ (some doc) false
          fix_filenames force_json c).ops := hop
      rcases wmMain_norm_ops_shape parse ip md ⟨ip.stem, ".json"⟩ (some doc) fix_filenames
          force_json c h op hop2 with ⟨cont, rfl⟩ | ⟨cont, rfl⟩
      · exact ⟨_, cont, rfl, stemOfName_json ip.stem hs⟩
      · exact ⟨_, cont, rfl, stemOfName_txt ip.stem hs⟩

theorem process_image_files_dry_no_ops (parse : String → Option JsonValue)
    (files : List ImgFile) (fix_filenames force_json : Bool) (c : String) :
    (process_image_files parse files true fix_filenames force_json c).ops = [] := by
  induction files with
  | nil => rfl
  | cons f rest ih =>
    unfold process_image_files
    cases hx : f.extracted with
    | none => exact WmResult.seq_ops_nil _ _ rfl ih
    | some md =>
      exact WmResult.seq_ops_nil _ _
        (WmResult.seq_ops_nil _ _ rfl
          (write_metadata_dry_no_ops parse f.path md f.existing fix_filenames force_json c)) ih

theorem process_skip_step (parse : String → Option JsonValue) (f : ImgFile)
    (rest : List ImgFile) (dry_run fix_filenames force_json : Bool) (c : String)
    (h : f.extracted = none) :
    process_image_files parse (f :: rest) dry_run fix_filenames force_json c
      = (⟨[], [], [.noMetadataWarning f.path.name], none⟩ : WmResult).seq
          (process_image_files parse rest dry_run fix_filenames force_json c) := by
  simp only [process_image_files, h]

theorem process_all_skip (parse : String → Option JsonValue) (files : List ImgFile)
    (dry_run fix_filenames force_json : Bool) (c : String)
    (h : ∀ f ∈ files, f.extracted = none) :
    process_image_files parse files dry_run fix_filenames force_json c
      = ⟨[], [], files.map (fun f => LogMsg.noMetadataWarning f.path.name), none⟩ := by
  induction files with
  | nil => rfl
  | cons f rest ih =>
    rw [process_skip_step parse f rest dry_run fix_filenames force_json c
      (h f (List.mem_cons_self f rest))]
    rw [ih (fun f2 h2 => h f2 (List.mem_cons_of_mem f h2))]
    rfl

theorem clean_char (listing : List String) (dry_run : Bool) :
    clean_orphaned_files listing dry_run =
      ⟨(if dry_run then [] else (orphanTargets listing).map FsOp.deleteFile),
        (if dry_run then (orphanTargets listing).map FsOp.deleteFile else []),
        (orphanTargets listing).map
          (fun f => if dry_run then LogMsg.dryDeleteOrphan f else LogMsg.deletedOrphan f),
        none⟩ := by
  unfold clean_orphaned_files orphanTargets
  rw [clean_fold dry_run listing listing listing WmResult.empty (fun g _ => Iff.rfl)]
  simp [WmResult.empty]

/-- C9: a file encountered by `clean_orphaned_files` is deleted exactly
when it carries a sidecar extension (`.json`/`.txt`, case-insensitive), no
sibling image exists under `.png`, `.jpg` or `.jpeg` (probed in that
order), and `dry_run` is false; under `dry_run` the same orphans are only
reported (announced deletions, nothing performed), and a sidecar with a
sibling image is never touched. -/
theorem clean_orphaned_files_spec (listing : List String) (dry_run : Bool) :
    (clean_orphaned_files listing dry_run).ops
        = (if dry_run then [] else (orphanTargets listing).map FsOp.deleteFile) ∧
    (clean_orphaned_files listing dry_run).planned
        = (if dry_run then (orphanTargets listing).map FsOp.deleteFile else []) ∧
    (clean_orphaned_files listing dry_run).logs
        = (orphanTargets listing).map
            (fun f => if dry_run then LogMsg.dryDeleteOrphan f else LogMsg.deletedOrphan f) := by
  rw [clean_char]
  exact ⟨rfl, rfl, rfl⟩

/-- C6 (amended): dry-run mode performs no filesystem mutation at all, in
`rename_file`, `write_metadata`, `clean_orphaned_files` and the whole
traversal; and the announced decisions coincide with a real run's
mutations for orphan cleaning unconditionally and for `write_metadata` on
images whose filename stem is already normalized.  The original claim's
unconditional decision identity fails when a rename is involved (see the
counterexample: the dry run reports the sidecar write against the
pre-rename path). -/
theorem dry_run_no_mutation_and_normalized_decisions :
    (∀ (parse : String → Option JsonValue) ip md ex fix_filenames force_json c,
      (write_metadata parse ip md ex true fix_filenames force_json c).ops = []) ∧
    (∀ o n, (rename_file o n true).ops = []) ∧
    (∀ listing, (clean_orphaned_files listing true).ops = []) ∧
    (∀ (parse : String → Option JsonValue) files fix_filenames force_json c,
      (process_image_files parse files true fix_filenames force_json c).ops = []) ∧
    (∀ (parse : String → Option JsonValue) ip md ex fix_filenames force_json c,
      fix_floating_point_filenames ip.stem = ip.stem →
      (write_metadata parse ip md ex true fix_filenames force_json c).planned
        = (write_metadata parse ip md ex false fix_filenames force_json c).ops) ∧
    (∀ listing, (clean_orphaned_files listing true).planned
        = (clean_orphaned_files listing false).ops) := by
  refine ⟨write_metadata_dry_no_ops, rename_file_dry_ops, ?_,
    process_image_files_dry_no_ops, ?_, ?_⟩
  · intro listing
    rw [clean_char]
    rfl
  · intro parse ip md ex fix_filenames force_json c h
    exact write_metadata_norm_planned_eq_ops parse ip md ex fix_filenames force_json c h
  · intro listing
    rw [clean_char, clean_char]
    rfl

/-- C7 (amended): a file whose metadata extraction fails or yields nothing
is skipped with a logged warning and the traversal continues with the
remaining files; in particular a run over files that all lack metadata
completes with no mutation and no escaped exception.  The original
claim's blanket no-escape property fails for failures inside
`write_metadata` (see the counterexample: a malformed pre-existing
sidecar aborts the whole traversal). -/
theorem process_skips_missing_metadata :
    (∀ (parse : String → Option JsonValue) f rest dry_run fix_filenames force_json c,
      f.extracted = none →
      process_image_files parse (f :: rest) dry_run fix_filenames force_json c
        = (⟨[], [], [.noMetadataWarning f.path.name], none⟩ : WmResult).seq
            (process_image_files parse rest dry_run fix_filenames force_json c)) ∧
    (∀ (parse : String → Option JsonValue) files dry_run fix_filenames force_json c,
      (∀ f ∈ files, f.extracted = none) →
      process_image_files parse files dry_run fix_filenames force_json c
        = ⟨[], [], files.map (fun f => LogMsg.noMetadataWarning f.path.name), none⟩) :=
  ⟨process_skip_step, process_all_skip⟩

/-- C2 (code_bug evidence): an image whose sidecar already records the
exact invocation command is nevertheless rewritten on a re-run without
`force_json` — the sidecar is opened for writing (a write to `img.json`
is performed) and no skip message is logged, because the idempotency
guard inspects the freshly parsed image payload's provenance list rather
than the sidecar's. -/
theorem write_metadata_rerun_rewrites_instead_of_skipping :
    writtenPaths (write_metadata parse0 imgP md0 (some (.ok e2doc)) false false false cmd0)
      = ["img.json"] ∧
    hasSkipLog (write_metadata parse0 imgP md0 (some (.ok e2doc)) false false false cmd0)
      = false := by
  exact ⟨by decide, by decide⟩

/-- C10: a metadata mapping whose first string value parses as the
non-object JSON value `123` makes `write_metadata` select it as the
embedded payload and raise an uncaught `TypeError` at the
`post_training_processing` membership check, so no sidecar of either
kind is written (and none is even announced). -/
theorem write_metadata_nonobject_payload_type_error :
    selectJsonPayload parse10 md10 = some "123" ∧
    (write_metadata parse10 imgP md10 none false false false "c").err = some .typeError ∧
    writtenPaths (write_metadata parse10 imgP md10 none false false false "c") = [] ∧
    plannedWritePaths (write_metadata parse10 imgP md10 none false false false "c") = [] := by
  exact ⟨by decide, by decide, by decide, by decide⟩

/-- C1 witness: the spec-order equation instantiated at concrete mappings
with a key conflict (`"b"`), together with the evaluated merge result
showing the provenance entry first and the existing value for `"b"`
retained. -/
theorem merge_json_data_eq_spec_witness :
    ((e0.map Prod.fst).Nodup ∧ (i0.map Prod.fst).Nodup) ∧
    merge_json_data e0 i0 = merge_spec_description e0 i0 ∧
    merge_json_data e0 i0
      = [(ptpKey, .jArr [.jStr "x"]), ("b", .jNum 2), ("c", .jNum 3)] :=
  ⟨⟨by decide, by decide⟩,
    merge_json_data_eq_spec e0 i0 (by decide) (by decide), by rfl⟩

/-- C3 counterexample: a forced re-run with pre-existing provenance
`["cmd1"]` and new command `"cmd2"` writes a document whose provenance
list is still `["cmd1"]` — not the appended `["cmd1", "cmd2"]` the claim
requires. -/
theorem write_metadata_force_append_counterexample :
    writtenJsonDocs (write_metadata parse0 imgP md0 (some (.ok e3doc)) false false true "cmd2")
      = [[(ptpKey, .jArr [.jStr "cmd1"]), ("a", .jNum 1)]] ∧
    [JsonValue.jStr "cmd1"] ≠ [JsonValue.jStr "cmd1", JsonValue.jStr "cmd2"] := by
  constructor
  · rfl
  · intro hcontra
    exact absurd (congrArg List.length hcontra) (by decide)

/-- C3 witness: the amended theorem applied at the concrete forced
re-run, with each hypothesis discharged. -/
theorem write_metadata_force_keeps_existing_ptp_witness :
    odLookup e3doc ptpKey = some (.jArr [.jStr "cmd1"]) ∧
    ∃ d, writtenJsonDocs (write_metadata parse0 imgP md0 (some (.ok e3doc)) false false true "cmd2")
        = [d] ∧ d.head? = some (ptpKey, .jArr [.jStr "cmd1"]) :=
  ⟨rfl, write_metadata_force_keeps_existing_ptp parse0 imgP md0 e3doc false false "cmd2"
    payload0 [("a", .jNum 1)] [.jStr "cmd1"]
    (by simp [e3doc]) rfl rfl rfl (Or.inl rfl)⟩

/-- C4 counterexample: a first write (no pre-existing sidecar) of the
payload `{"a": 1}` produces a document whose keys are
`["a", "post_training_processing"]` — the provenance key is present but
last, not first as the claim requires. -/
theorem write_metadata_first_write_ptp_last_counterexample :
    (writtenJsonDocs (write_metadata parse0 imgP md0 none false false false "c")).map
        (fun d => d.map Prod.fst) = [["a", ptpKey]] ∧
    (["a", ptpKey] : List String).head? = some "a" ∧ "a" ≠ ptpKey := by
  exact ⟨by decide, by decide, by decide⟩

/-- C4 witness: the amended theorem applied at a concrete merge with a
nonempty pre-existing sidecar, instantiated at the one document the run
writes. -/
theorem write_metadata_merged_ptp_first_witness :
    e3doc ≠ [] ∧
    ([(ptpKey, JsonValue.jArr [JsonValue.jStr "cmd1"]), ("a", JsonValue.jNum 1)] :
        List (String × JsonValue))
      ∈ writtenJsonDocs (write_metadata parse0 imgP md0 (some (.ok e3doc)) false false false "c") ∧
    ∃ w, ([(ptpKey, JsonValue.jArr [JsonValue.jStr "cmd1"]), ("a", JsonValue.jNum 1)] :
        List (String × JsonValue)).head? = some (ptpKey, w) :=
  ⟨by simp [e3doc], List.mem_singleton.mpr rfl,
    write_metadata_merged_ptp_first parse0 imgP md0 e3doc false false false "c" (by simp [e3doc])
      _ (List.mem_singleton.mpr rfl)⟩

/-- C5 counterexample: with image `a1.0.png`, a pre-existing sidecar
`a1.0.json` and `fix_filenames` off, the operation renames the sidecar to
`a1.00.json` and writes there while never renaming the image, so the pair
ends with different stems. -/
theorem write_metadata_rename_desync_counterexample :
    applyRenames (write_metadata parse0 ip5 md0 (some (.ok e3doc)) false false false "c").ops
        "a1.0.png" = "a1.0.png" ∧
    writtenPaths (write_metadata parse0 ip5 md0 (some (.ok e3doc)) false false false "c")
        = ["a1.00.json"] ∧
    stemOfName "a1.00.json" ≠ stemOfName "a1.0.png" := by
  exact ⟨by decide, by decide, by decide⟩

/-- C5 witness: the amended theorem applied at a normalized stem, with
both hypotheses discharged, instantiated at the one write the run
performs. -/
theorem write_metadata_norm_stems_witness :
    (fix_floating_point_filenames imgP.stem = imgP.stem ∧ imgP.stem ≠ "") ∧
    FsOp.writeFile "img.json"
        (.jsonDoc [(ptpKey, .jArr [.jStr "cmd1"]), ("a", .jNum 1)])
      ∈ (write_metadata parse0 imgP md0 (some (.ok e3doc)) false false false "c").ops ∧
    ∃ p cont, FsOp.writeFile "img.json"
        (.jsonDoc [(ptpKey, .jArr [.jStr "cmd1"]), ("a", .jNum 1)])
      = .writeFile p cont ∧ stemOfName p = imgP.stem :=
  ⟨⟨by decide, by decide⟩, List.mem_singleton.mpr rfl,
    write_metadata_norm_stems parse0 imgP md0 (some (.ok e3doc)) false false "c"
      (by decide) (by decide) _ (List.mem_singleton.mpr rfl)⟩

/-- C6 counterexample: on the same unnormalized state, the dry run
announces the sidecar write against the pre-rename path `a1.0.json`,
while the real run writes to the post-rename path `a1.00.json` — the
decisions are not identical. -/
theorem dry_run_decision_divergence_counterexample :
    plannedWritePaths (write_metadata parse0 ip5 md0 (some (.ok e3doc)) true false false "c")
        = ["a1.0.json"] ∧
    writtenPaths (write_metadata parse0 ip5 md0 (some (.ok e3doc)) false false false "c")
        = ["a1.00.json"] ∧
    ("a1.0.json" : String) ≠ "a1.00.json" := by
  exact ⟨by decide, by decide, by decide⟩

/-- C6 witness: the normalized-decisions conjunct applied at a concrete
normalized state, with its hypothesis discharged. -/
theorem dry_run_no_mutation_and_normalized_decisions_witness :
    fix_floating_point_filenames imgP.stem = imgP.stem ∧
    (write_metadata parse0 imgP md0 (some (.ok e3doc)) true false false "c").planned
      = (write_metadata parse0 imgP md0 (some (.ok e3doc)) false false false "c").ops :=
  ⟨by decide,
    dry_run_no_mutation_and_normalized_decisions.2.2.2.2.1 parse0 imgP md0
      (some (.ok e3doc)) false false "c" (by decide)⟩

/-- C7 counterexample: a malformed pre-existing sidecar makes the
exception escape `write_metadata` and abort the traversal — the run over
`[fBad, fGood]` ends with an escaped `JSONDecodeError` and no file
written, while a run over `[fGood]` alone writes its sidecar. -/
theorem process_malformed_sidecar_aborts_counterexample :
    (process_image_files parse0 [fBad, fGood] false false false "c").err
        = some .jsonDecodeEscape ∧
    writtenPaths (process_image_files parse0 [fBad, fGood] false false false "c") = [] ∧
    writtenPaths (process_image_files parse0 [fGood] false false false "c") = ["b.json"] := by
  exact ⟨by decide, by decide, by decide⟩

/-- C7 witness: the skip conjunct applied at a concrete file without
metadata, with its hypothesis discharged. -/
theorem process_skips_missing_metadata_witness :
    process_image_files parse0 [fSkip] false false false "c"
      = (⟨[], [], [.noMetadataWarning fSkip.path.name], none⟩ : WmResult).seq
          (process_image_files parse0 [] false false false "c") :=
  process_skips_missing_metadata.1 parse0 fSkip [] false false false "c" rfl
